import Mathlib

/-!
# Verification of the elliptic paraboloid wireframe core

Shallow embedding of the Rust sources under
`src/surfaces/ellipticParaboloidWireframe/rustsrc/` (crate `paraboloid`):

* `lib.rs` — constants and the global rotation state;
* `generate_mesh.rs` — vertex generation for the paraboloid surface;
* `generate_indices.rs` — wireframe connectivity generation;
* `rotate_mesh.rs` — in-place rotation of the vertex buffer;
* `set_rotation_angle.rs` — small-angle Taylor update of the cached
  cosine/sine.

Modelling conventions:

* `f32` values are modelled as rational numbers, and every arithmetic
  operation of the source rounds its exact rational result to the nearest
  IEEE-754 binary32 value (ties to even, subnormals flattened at exponent
  -126).  Infinities, NaN and the sign of zero are outside the model; no
  claim under consideration reaches them.
* `u32` loop arithmetic is modelled on `ℕ`: within the guarded ranges the
  source arithmetic never wraps, and the guard itself compares magnitudes
  that fit well inside `u32`.
* Buffers reached through raw pointers are modelled as Lean lists, with
  `List.set` for an in-bounds store; each claim carries the length
  hypothesis that makes the source's slice accesses in bounds.
* The mutable globals `ROTATION_ANGLE`, `COS_ANGLE`, `SIN_ANGLE` are
  modelled as an explicit `RotationState` record threaded through the
  operations.
-/

namespace Paraboloid

/-! ## IEEE-754 binary32 rounding on ℚ

The search loops below use explicit fuel so that every definition reduces
by kernel computation (`decide`).  All arithmetic is on `ℕ`/`ℤ`, and the
result is rebuilt with `mkRat`, avoiding the irreducible `Rat` operations.
-/

/-- Binary normalization: given positive `a / b`, double `a` or `b` until
`1 ≤ a / b < 2`, tracking the binary exponent `e` so that the value
`(a / b) · 2 ^ e` is invariant.  `600` steps of fuel cover all inputs this
development evaluates. -/
def normLoop : ℕ → ℕ → ℕ → ℤ → ℕ × ℕ × ℤ
  | 0, a, b, e => (a, b, e)
  | fuel+1, a, b, e =>
    if a < b then normLoop fuel (2*a) b (e-1)
    else if 2*b ≤ a then normLoop fuel a (2*b) (e+1)
    else (a, b, e)

/-- Round the positive rational `a / b` to the nearest IEEE-754 binary32
value (ties to even), returned as a rational.  Exponents below -126 are
clamped (subnormal range); exponent overflow is not modelled. -/
def roundPosF32 (a b : ℕ) : ℚ :=
  let abe := normLoop 600 a b 0
  let e := abe.2.2
  let ec : ℤ := if e < -126 then -126 else e
  let k : ℤ := e + 23 - ec
  let num : ℕ := if 0 ≤ k then abe.1 * 2^k.toNat else abe.1
  let den : ℕ := if 0 ≤ k then abe.2.1 else abe.2.1 * 2^(-k).toNat
  let n0 : ℕ := num / den
  let rem : ℕ := num % den
  let m : ℕ := if den < 2*rem then n0+1 else if 2*rem < den then n0 else if n0 % 2 = 0 then n0 else n0+1
  if 23 ≤ ec then mkRat (m * 2^(ec-23).toNat) 1 else mkRat m (2^(23-ec).toNat)

/-- Round a rational to the nearest IEEE-754 binary32 value. -/
def roundF32 (q : ℚ) : ℚ :=
  if q.num = 0 then 0
  else if 0 < q.num then roundPosF32 q.num.toNat q.den
  else -(roundPosF32 (-q.num).toNat q.den)

/-- `q` is exactly representable as a binary32 value. -/
def IsF32 (q : ℚ) : Prop := roundF32 q = q

instance (q : ℚ) : Decidable (IsF32 q) := by unfold IsF32; infer_instance

/-- Exact rational addition, written on numerators and denominators so
that it reduces by kernel computation (`Rat.add` is irreducible). -/
def qadd (a b : ℚ) : ℚ := mkRat (a.num * b.den + b.num * a.den) (a.den * b.den)

/-- Exact rational subtraction in computable form. -/
def qsub (a b : ℚ) : ℚ := mkRat (a.num * b.den - b.num * a.den) (a.den * b.den)

/-- Exact rational multiplication in computable form. -/
def qmul (a b : ℚ) : ℚ := mkRat (a.num * b.num) (a.den * b.den)

/-- Exact rational division in computable form (division by zero yields
zero, matching `ℚ`). -/
def qdiv (a b : ℚ) : ℚ := Rat.divInt (a.num * b.den) (b.num * a.den)

theorem qadd_eq (a b : ℚ) : qadd a b = a + b := (Rat.add_def' a b).symm

theorem qsub_eq (a b : ℚ) : qsub a b = a - b := (Rat.sub_def' a b).symm

theorem qmul_eq (a b : ℚ) : qmul a b = a * b := by
  rw [qmul, Rat.mul_def, Rat.normalize_eq_mkRat]

theorem qdiv_eq (a b : ℚ) : qdiv a b = a / b := by
  rw [qdiv, Rat.divInt_eq_div]
  rcases eq_or_ne b 0 with hb | hb
  · simp [hb]
  · have had : (a.den : ℚ) ≠ 0 := by exact_mod_cast a.den_nz
    have hbd : (b.den : ℚ) ≠ 0 := by exact_mod_cast b.den_nz
    have hbn : (b.num : ℚ) ≠ 0 := by exact_mod_cast Rat.num_ne_zero.mpr hb
    have ka : a * (a.den : ℚ) = a.num := (eq_div_iff had).mp (Rat.num_div_den a).symm
    have kb : b * (b.den : ℚ) = b.num := (eq_div_iff hbd).mp (Rat.num_div_den b).symm
    push_cast
    rw [div_eq_div_iff (mul_ne_zero hbn had) hb, ← ka, ← kb]
    ring

/-- Addition of two `f32` values: exact sum, then rounding. -/
def fadd (a b : ℚ) : ℚ := roundF32 (qadd a b)

/-- Subtraction of two `f32` values: exact difference, then rounding. -/
def fsub (a b : ℚ) : ℚ := roundF32 (qsub a b)

/-- Multiplication of two `f32` values: exact product, then rounding. -/
def fmul (a b : ℚ) : ℚ := roundF32 (qmul a b)

/-- Division of two `f32` values: exact quotient, then rounding. -/
def fdiv (a b : ℚ) : ℚ := roundF32 (qdiv a b)

/-- Conversion of a `u32` value to `f32` (`as f32` in the source). -/
def u32ToF32 (n : ℕ) : ℚ := roundF32 (n : ℚ)

/-! ## Constants from `lib.rs` -/

/-- `pub const MAX_WIDTH: u32 = 512;` -/
def MAX_WIDTH : ℕ := 512

/-- `pub const MAX_HEIGHT: u32 = 512;` -/
def MAX_HEIGHT : ℕ := 512

/-- `pub const MAX_LENGTH: u32 = MAX_HEIGHT * MAX_WIDTH;` -/
def MAX_LENGTH : ℕ := MAX_HEIGHT * MAX_WIDTH

/-- `pub const MESH_SIZE: usize = (3 * MAX_LENGTH) as usize;` -/
def MESH_SIZE : ℕ := 3 * MAX_LENGTH

/-- `pub const INDEX_SIZE: usize = (2*(2*MAX_LENGTH-MAX_WIDTH-MAX_HEIGHT)) as usize;` -/
def INDEX_SIZE : ℕ := 2*(2*MAX_LENGTH - MAX_WIDTH - MAX_HEIGHT)

/-- `pub const PARABOLOID_WIDTH: f32 = 2.0;` -/
def PARABOLOID_WIDTH : ℚ := 2

/-- `pub const PARABOLOID_HEIGHT: f32 = 2.0;` -/
def PARABOLOID_HEIGHT : ℚ := 2

/-- `pub const PARABOLOID_X_START: f32 = -1.0;` -/
def PARABOLOID_X_START : ℚ := -1

/-- `pub const PARABOLOID_Y_START: f32 = -1.0;` -/
def PARABOLOID_Y_START : ℚ := -1

/-! ## Buffer writes

The Rust functions write through a raw pointer at consecutive positions.
`writeSeq arr p vs` performs the stores `arr[p] = vs[0]`, `arr[p+1] = vs[1]`,
… ; a store past the end of the list is a no-op in the model (the sources
never reach one under the length hypotheses the claims carry). -/
def writeSeq {α : Type} : List α → ℕ → List α → List α
  | arr, _, [] => arr
  | arr, p, v :: vs => writeSeq (arr.set p v) (p+1) vs

/-! ## `generate_indices.rs` -/

/-- The two stores `arr[index] = v; arr[index + 1] = w; index += 2;`. -/
def writePair {α : Type} (st : List α × ℕ) (v w : α) : List α × ℕ :=
  ((st.1.set st.2 v).set (st.2+1) w, st.2+2)

/-- Body of the inner loop of `generate_indices` for the point
`(x_index, y_index)`: the state is the buffer together with the running
write cursor `index`. -/
def indicesBody (nx_pts ny_pts y_index x_index : ℕ) (st : List ℕ × ℕ) : List ℕ × ℕ :=
  let shift := y_index * nx_pts
  let index00 := shift + x_index
  let index01 := index00 + 1
  let index10 := index00 + nx_pts
  let st1 := if y_index ≠ ny_pts - 1 then writePair st index00 index10 else st
  if x_index ≠ nx_pts - 1 then writePair st1 index00 index01 else st1

/-- `generate_indices(ptr, nx_pts, ny_pts)` from `generate_indices.rs`.
The oversize guard returns before any store; the loop arithmetic is exact
on `ℕ` for all guarded sizes. -/
def generate_indices (arr : List ℕ) (nx_pts ny_pts : ℕ) : List ℕ :=
  if nx_pts > MAX_WIDTH ∨ ny_pts > MAX_HEIGHT then arr
  else
    ((List.range ny_pts).foldl
      (fun st y_index =>
        (List.range nx_pts).foldl
          (fun st2 x_index => indicesBody nx_pts ny_pts y_index x_index st2) st)
      (arr, 0)).1

/-- The index pairs emitted for the grid point `(x, y)`: the vertical edge
`(id, id + nx_pts)` unless `y` is the last row, then the horizontal edge
`(id, id + 1)` unless `x` is the last column, where `id = y*nx_pts + x`. -/
def pointPairs (nx_pts ny_pts y x : ℕ) : List ℕ :=
  let id := y * nx_pts + x
  (if y ≠ ny_pts - 1 then [id, id + nx_pts] else []) ++
    (if x ≠ nx_pts - 1 then [id, id + 1] else [])

/-- The full stream of index entries written by `generate_indices`, rows
outer ascending, columns inner ascending. -/
def emittedIndices (nx_pts ny_pts : ℕ) : List ℕ :=
  (List.range ny_pts).flatMap fun y =>
    (List.range nx_pts).flatMap fun x => pointPairs nx_pts ny_pts y x

/-! ## `generate_mesh.rs` -/

/-- `const HEIGH_SHIFT: f32 = -2.0;` (local constant of `generate_mesh`,
source spelling kept). -/
def HEIGH_SHIFT : ℚ := -2

/-- `let dx: f32 = PARABOLOID_WIDTH / ((nx_pts - 1) as f32);` -/
def meshDx (nx_pts : ℕ) : ℚ := fdiv PARABOLOID_WIDTH (u32ToF32 (nx_pts - 1))

/-- `let dy: f32 = PARABOLOID_HEIGHT / ((ny_pts - 1) as f32);` -/
def meshDy (ny_pts : ℕ) : ℚ := fdiv PARABOLOID_HEIGHT (u32ToF32 (ny_pts - 1))

/-- `let x_pt: f32 = PARABOLOID_X_START + (x_index as f32) * dx;` -/
def meshX (nx_pts x_index : ℕ) : ℚ :=
  fadd PARABOLOID_X_START (fmul (u32ToF32 x_index) (meshDx nx_pts))

/-- `let y_pt: f32 = PARABOLOID_Y_START + (y_index as f32) * dy;` -/
def meshY (ny_pts y_index : ℕ) : ℚ :=
  fadd PARABOLOID_Y_START (fmul (u32ToF32 y_index) (meshDy ny_pts))

/-- `let z_pt: f32 = x_pt * x_pt + 2.0 * y_pt * y_pt + HEIGH_SHIFT;`
(f32 evaluation order: `((x·x) + ((2·y)·y)) + HEIGH_SHIFT`). -/
def meshZ (nx_pts ny_pts x_index y_index : ℕ) : ℚ :=
  fadd
    (fadd (fmul (meshX nx_pts x_index) (meshX nx_pts x_index))
      (fmul (fmul 2 (meshY ny_pts y_index)) (meshY ny_pts y_index)))
    HEIGH_SHIFT

/-- The three stores `arr[index] = x_pt; arr[index+1] = y_pt;
arr[index+2] = z_pt; index += 3;`. -/
def writeTriple {α : Type} (st : List α × ℕ) (v0 v1 v2 : α) : List α × ℕ :=
  ((((st.1.set st.2 v0).set (st.2+1) v1).set (st.2+2) v2), st.2+3)

/-- `generate_mesh(ptr, nx_pts, ny_pts)` from `generate_mesh.rs`.  The
oversize guard returns before any store.  (For `nx_pts = 0` the source's
`nx_pts - 1` would wrap as `u32`; the model uses truncated subtraction —
every claim under consideration has `nx_pts, ny_pts ≥ 2` or takes the
guard branch, where the two agree.) -/
def generate_mesh (arr : List ℚ) (nx_pts ny_pts : ℕ) : List ℚ :=
  if nx_pts > MAX_WIDTH ∨ ny_pts > MAX_HEIGHT then arr
  else
    ((List.range ny_pts).foldl
      (fun st y_index =>
        (List.range nx_pts).foldl
          (fun st2 x_index =>
            writeTriple st2 (meshX nx_pts x_index) (meshY ny_pts y_index)
              (meshZ nx_pts ny_pts x_index y_index)) st)
      (arr, 0)).1

/-- The stream of vertex components written by `generate_mesh`, row-major. -/
def meshVals (nx_pts ny_pts : ℕ) : List ℚ :=
  (List.range ny_pts).flatMap fun y_index =>
    (List.range nx_pts).flatMap fun x_index =>
      [meshX nx_pts x_index, meshY ny_pts y_index, meshZ nx_pts ny_pts x_index y_index]

/-! ## Rotation state (`lib.rs` globals) and `set_rotation_angle.rs` -/

/-- The three `Mutex<f32>` globals of `lib.rs`, as an explicit record. -/
structure RotationState where
  rotation_angle : ℚ
  cos_angle : ℚ
  sin_angle : ℚ
  deriving DecidableEq

/-- `ROTATION_ANGLE = 0.0`, `COS_ANGLE = 1.0`, `SIN_ANGLE = 0.0`. -/
def initState : RotationState :=
  { rotation_angle := 0, cos_angle := 1, sin_angle := 0 }

/-- `const C0: f32 = 1.00000000E+00;` -/
def C0 : ℚ := roundF32 1

/-- `const C1: f32 = -5.00000000E-01;` -/
def C1 : ℚ := roundF32 (-(mkRat 5 10))

/-- `const C2: f32 = 4.16666667E-02;` -/
def C2 : ℚ := roundF32 (mkRat 416666667 10000000000)

/-- `const S0: f32 = 1.00000000E+00;` -/
def S0 : ℚ := roundF32 1

/-- `const S1: f32 = -1.66666667E-01;` -/
def S1 : ℚ := roundF32 (-(mkRat 166666667 1000000000))

/-- `fn small_angle_cos(zsq: f32) -> f32 { C0 + zsq * (C1 + zsq * C2) }` -/
def small_angle_cos (zsq : ℚ) : ℚ := fadd C0 (fmul zsq (fadd C1 (fmul zsq C2)))

/-- `fn small_angle_sin(z: f32, zsq: f32) -> f32 { z * (S0 + zsq * S1) }` -/
def small_angle_sin (z zsq : ℚ) : ℚ := fmul z (fadd S0 (fmul zsq S1))

/-- `set_rotation_angle(angle)` from `set_rotation_angle.rs`: stores the
angle and the two Taylor values into the globals. -/
def set_rotation_angle (angle : ℚ) : RotationState :=
  let angle_squared := fmul angle angle
  { rotation_angle := angle
    cos_angle := small_angle_cos angle_squared
    sin_angle := small_angle_sin angle angle_squared }

/-! ## `rotate_mesh.rs` -/

/-- Body of the loop of `rotate_mesh` for point `index`: read `x`, `y`,
store the rotated pair, leave the `z` slot alone. -/
def rotatePoint (cos_angle sin_angle : ℚ) (arr : List ℚ) (index : ℕ) : List ℚ :=
  let x_index := 3 * index
  let y_index := x_index + 1
  let x := arr.getD x_index 0
  let y := arr.getD y_index 0
  (arr.set x_index (fsub (fmul cos_angle x) (fmul sin_angle y))).set y_index
    (fadd (fmul cos_angle y) (fmul sin_angle x))

/-- `rotate_mesh(ptr, n_pts)` from `rotate_mesh.rs`: the cached cosine and
sine are read once and used for every point. -/
def rotate_mesh (st : RotationState) (arr : List ℚ) (n_pts : ℕ) : List ℚ :=
  (List.range n_pts).foldl (rotatePoint st.cos_angle st.sin_angle) arr

/-! ## The public API as a transition system (`lib.rs` wasm exports) -/

/-- Process-wide state: the rotation globals and the two static buffers. -/
structure SystemState where
  rotation : RotationState
  mesh_buffer : List ℚ
  index_buffer : List ℕ

/-- State at process start (`lib.rs` static initializers). -/
def initSystem : SystemState :=
  { rotation := initState
    mesh_buffer := List.replicate MESH_SIZE 0
    index_buffer := List.replicate INDEX_SIZE 0 }

/-- One call into the public wasm API, directed at the static buffers. -/
inductive HostOp where
  | setRotationAngle (angle : ℚ)
  | generateMesh (nx_pts ny_pts : ℕ)
  | generateIndices (nx_pts ny_pts : ℕ)
  | rotateMesh (n_pts : ℕ)
  | getMeshBuffer
  | getIndexBuffer

/-- Effect of one public call on the process state.  The two getters only
return an address and change nothing. -/
def applyOp (st : SystemState) : HostOp → SystemState
  | .setRotationAngle a => { st with rotation := set_rotation_angle a }
  | .generateMesh nx ny => { st with mesh_buffer := generate_mesh st.mesh_buffer nx ny }
  | .generateIndices nx ny => { st with index_buffer := generate_indices st.index_buffer nx ny }
  | .rotateMesh n => { st with mesh_buffer := rotate_mesh st.rotation st.mesh_buffer n }
  | .getMeshBuffer => st
  | .getIndexBuffer => st

/-- Run a sequence of public calls from a state. -/
def runOps (st : SystemState) (ops : List HostOp) : SystemState :=
  ops.foldl applyOp st

/-- The rotation-state consistency invariant: the cached cosine and sine
are the Taylor values of the stored angle. -/
def RotConsistent (st : RotationState) : Prop :=
  st.cos_angle = small_angle_cos (fmul st.rotation_angle st.rotation_angle) ∧
    st.sin_angle = small_angle_sin st.rotation_angle (fmul st.rotation_angle st.rotation_angle)

/-! ## Spec-side definitions (for the refinement claim C6) -/

/-- Modelled from the spec, §4.4: the truncated Taylor polynomial
`1 − θ²/2 + θ⁴/24`, coefficients at binary32 precision, evaluated in
Horner form in f32 arithmetic. -/
def specTaylorCos (θ : ℚ) : ℚ :=
  fadd (roundF32 1)
    (fmul (fmul θ θ) (fadd (roundF32 (-(mkRat 1 2))) (fmul (fmul θ θ) (roundF32 (mkRat 1 24)))))

/-- Modelled from the spec, §4.4: the truncated Taylor polynomial
`θ·(1 − θ²/6)`, coefficients at binary32 precision, evaluated in f32
arithmetic. -/
def specTaylorSin (θ : ℚ) : ℚ :=
  fmul θ (fadd (roundF32 1) (fmul (fmul θ θ) (roundF32 (-(mkRat 1 6)))))

/-! ## Write-sequence lemmas

A run of consecutive stores starting at position `p` replaces the slice
`[p, p + vs.length)` and touches nothing else. -/

theorem length_writeSeq {α : Type} (vs : List α) :
    ∀ (arr : List α) (p : ℕ), (writeSeq arr p vs).length = arr.length := by
  induction vs with
  | nil => intro arr p; rfl
  | cons v vs ih => intro arr p; rw [writeSeq, ih, List.length_set]

theorem writeSeq_append {α : Type} (u : List α) :
    ∀ (arr : List α) (p : ℕ) (w : List α),
      writeSeq arr p (u ++ w) = writeSeq (writeSeq arr p u) (p + u.length) w := by
  induction u with
  | nil => intro arr p w; simp [writeSeq]
  | cons a u ih =>
    intro arr p w
    rw [List.cons_append, writeSeq, writeSeq, ih, List.length_cons,
      show p + 1 + u.length = p + (u.length + 1) from by omega]

theorem writeSeq_shift {α : Type} (vs : List α) :
    ∀ (l₁ l₂ : List α) (p : ℕ), l₁.length ≤ p →
      writeSeq (l₁ ++ l₂) p vs = l₁ ++ writeSeq l₂ (p - l₁.length) vs := by
  induction vs with
  | nil => intro l₁ l₂ p _; rfl
  | cons v vs ih =>
    intro l₁ l₂ p h
    rw [writeSeq, List.set_append_right _ _ h, ih _ _ _ (by omega), writeSeq,
      show p + 1 - l₁.length = p - l₁.length + 1 from by omega]

theorem writeSeq_zero {α : Type} (vs : List α) :
    ∀ (arr : List α), vs.length ≤ arr.length →
      writeSeq arr 0 vs = vs ++ arr.drop vs.length := by
  induction vs with
  | nil => intro arr _; simp [writeSeq]
  | cons v vs ih =>
    intro arr h
    match arr with
    | a :: as =>
      rw [writeSeq, List.set_cons_zero,
        show v :: as = [v] ++ as from rfl,
        writeSeq_shift vs [v] as 1 (by simp),
        show (1 : ℕ) - [v].length = 0 from rfl,
        ih as (by simpa using Nat.le_of_succ_le_succ h)]
      simp

theorem writeSeq_eq_append {α : Type} (arr vs : List α) (p : ℕ)
    (h : p + vs.length ≤ arr.length) :
    writeSeq arr p vs = arr.take p ++ vs ++ arr.drop (p + vs.length) := by
  have hp : p ≤ arr.length := by omega
  have htk : (arr.take p).length = p := by
    rw [List.length_take]; omega
  conv_lhs => rw [← List.take_append_drop p arr]
  rw [writeSeq_shift vs (arr.take p) (arr.drop p) p (by rw [htk]), htk,
    Nat.sub_self,
    writeSeq_zero _ _ (by rw [List.length_drop]; omega), List.drop_drop,
    List.append_assoc]

/-- Folding a loop whose body performs a block of consecutive stores is a
single write of the concatenated stream. -/
theorem foldl_writeSeq {α ι : Type} (f : ι → List α)
    (g : List α × ℕ → ι → List α × ℕ)
    (hg : ∀ st i, g st i = (writeSeq st.1 st.2 (f i), st.2 + (f i).length)) :
    ∀ (l : List ι) (arr : List α) (p : ℕ),
      l.foldl g (arr, p) = (writeSeq arr p (l.flatMap f), p + (l.flatMap f).length) := by
  intro l
  induction l with
  | nil => intro arr p; simp [writeSeq]
  | cons i l ih =>
    intro arr p
    rw [List.foldl_cons, hg, ih, List.flatMap_cons, writeSeq_append,
      List.length_append]
    rw [show p + (f i).length + (l.flatMap f).length
        = p + ((f i).length + (l.flatMap f).length) from by omega]

/-! ## `generate_indices` as a single write of the emitted stream -/

theorem indicesBody_eq (nx ny y x : ℕ) (st : List ℕ × ℕ) :
    indicesBody nx ny y x st
      = (writeSeq st.1 st.2 (pointPairs nx ny y x),
         st.2 + (pointPairs nx ny y x).length) := by
  unfold indicesBody pointPairs writePair
  by_cases hy : y ≠ ny - 1 <;> by_cases hx : x ≠ nx - 1 <;>
    simp [hy, hx, writeSeq, Nat.add_assoc]

theorem generate_indices_eq (nx ny : ℕ) (h : ¬(nx > MAX_WIDTH ∨ ny > MAX_HEIGHT))
    (arr : List ℕ) :
    generate_indices arr nx ny = writeSeq arr 0 (emittedIndices nx ny) := by
  have hinner : ∀ (y : ℕ) (st : List ℕ × ℕ),
      (List.range nx).foldl (fun st2 x => indicesBody nx ny y x st2) st
        = (writeSeq st.1 st.2 ((List.range nx).flatMap (pointPairs nx ny y)),
           st.2 + ((List.range nx).flatMap (pointPairs nx ny y)).length) := by
    intro y st
    exact foldl_writeSeq (pointPairs nx ny y)
      (fun st2 x => indicesBody nx ny y x st2)
      (fun st2 x => indicesBody_eq nx ny y x st2) (List.range nx) st.1 st.2
  have houter := foldl_writeSeq
    (fun y => (List.range nx).flatMap (pointPairs nx ny y))
    (fun st y => (List.range nx).foldl (fun st2 x => indicesBody nx ny y x st2) st)
    (fun st y => hinner y st) (List.range ny) arr 0
  rw [generate_indices, if_neg h, houter]
  rfl

theorem length_pointPairs (nx ny y x : ℕ) :
    (pointPairs nx ny y x).length
      = (if y ≠ ny - 1 then 2 else 0) + (if x ≠ nx - 1 then 2 else 0) := by
  by_cases hy : y ≠ ny - 1 <;> by_cases hx : x ≠ nx - 1 <;>
    simp [pointPairs, hy, hx]

theorem sum_range_if_ne_last (n c : ℕ) (hn : 1 ≤ n) :
    ((List.range n).map (fun x => c + (if x ≠ n - 1 then 2 else 0))).sum
      = n * c + 2 * (n - 1) := by
  obtain ⟨m, rfl⟩ : ∃ m, n = m + 1 := ⟨n - 1, by omega⟩
  rw [List.range_succ, List.map_append, List.sum_append]
  have hmap : (List.range m).map (fun x => c + (if x ≠ m + 1 - 1 then 2 else 0))
      = (List.range m).map (fun _ => c + 2) := by
    apply List.map_congr_left
    intro x hxm
    rw [List.mem_range] at hxm
    rw [if_pos (by omega)]
  rw [hmap, List.map_const', List.sum_replicate, smul_eq_mul, List.length_range]
  simp only [List.map_cons, List.map_nil, List.sum_cons, List.sum_nil]
  rw [if_neg (by omega)]
  simp only [Nat.add_sub_cancel]
  ring

theorem length_rowPairs (nx ny y : ℕ) (hnx : 1 ≤ nx) :
    ((List.range nx).flatMap (pointPairs nx ny y)).length
      = nx * (if y ≠ ny - 1 then 2 else 0) + 2 * (nx - 1) := by
  rw [List.length_flatMap]
  by_cases hy : y ≠ ny - 1
  · rw [if_pos hy]
    have hmap : (List.range nx).map (List.length ∘ pointPairs nx ny y)
        = (List.range nx).map (fun x => 2 + (if x ≠ nx - 1 then 2 else 0)) := by
      apply List.map_congr_left
      intro x _
      simp only [Function.comp_apply]
      rw [length_pointPairs, if_pos hy]
    rw [hmap, sum_range_if_ne_last nx 2 hnx]
  · rw [if_neg hy]
    have hmap : (List.range nx).map (List.length ∘ pointPairs nx ny y)
        = (List.range nx).map (fun x => 0 + (if x ≠ nx - 1 then 2 else 0)) := by
      apply List.map_congr_left
      intro x _
      simp only [Function.comp_apply]
      rw [length_pointPairs, if_neg hy]
    rw [hmap, sum_range_if_ne_last nx 0 hnx]

theorem length_emittedIndices (nx ny : ℕ) (hnx : 1 ≤ nx) (hny : 1 ≤ ny) :
    (emittedIndices nx ny).length = 2 * (2 * nx * ny - nx - ny) := by
  obtain ⟨k, rfl⟩ : ∃ k, ny = k + 1 := ⟨ny - 1, by omega⟩
  rw [emittedIndices, List.length_flatMap, List.range_succ, List.map_append,
    List.sum_append]
  have hmap : (List.range k).map
        (List.length ∘ fun y => (List.range nx).flatMap fun x => pointPairs nx (k+1) y x)
      = (List.range k).map (fun _ => nx * 2 + 2 * (nx - 1)) := by
    apply List.map_congr_left
    intro y hyk
    rw [List.mem_range] at hyk
    simp only [Function.comp_apply]
    rw [length_rowPairs nx (k+1) y hnx, if_pos (by omega)]
  rw [hmap, List.map_const', List.sum_replicate, smul_eq_mul, List.length_range]
  simp only [List.map_cons, List.map_nil, List.sum_cons, List.sum_nil,
    Function.comp_apply]
  rw [length_rowPairs nx (k+1) k hnx, if_neg (by omega)]
  obtain ⟨m, rfl⟩ : ∃ m, nx = m + 1 := ⟨nx - 1, by omega⟩
  have hprod : 2 * (m + 1) * (k + 1) = 2 * (m * k) + 2 * m + 2 * k + 2 := by ring
  have h2 : k * ((m + 1) * 2 + 2 * ((m + 1) - 1)) = 4 * (m * k) + 2 * k := by
    simp only [Nat.add_sub_cancel]; ring
  omega

theorem gridId_lt (nx ny a b : ℕ) (ha : a < ny) (hb : b < nx) :
    a * nx + b < nx * ny := by
  calc a * nx + b < a * nx + nx := by omega
    _ = (a + 1) * nx := by ring
    _ ≤ ny * nx := Nat.mul_le_mul_right nx ha
    _ = nx * ny := Nat.mul_comm ny nx

theorem emittedIndices_lt (nx ny v : ℕ) (hv : v ∈ emittedIndices nx ny) :
    v < nx * ny := by
  rw [emittedIndices, List.mem_flatMap] at hv
  obtain ⟨y, hy, hv⟩ := hv
  rw [List.mem_flatMap] at hv
  obtain ⟨x, hx, hv⟩ := hv
  rw [List.mem_range] at hy hx
  rw [pointPairs, List.mem_append] at hv
  rcases hv with hv | hv
  · by_cases hylast : y ≠ ny - 1
    · rw [if_pos hylast] at hv
      have hy1 : y + 1 < ny := by omega
      simp only [List.mem_cons, List.not_mem_nil, or_false] at hv
      rcases hv with rfl | rfl
      · exact gridId_lt nx ny y x hy hx
      · calc y * nx + x + nx = (y + 1) * nx + x := by ring
          _ < nx * ny := gridId_lt nx ny (y+1) x hy1 hx
    · rw [if_neg hylast] at hv
      exact absurd hv (List.not_mem_nil v)
  · by_cases hxlast : x ≠ nx - 1
    · rw [if_pos hxlast] at hv
      have hx1 : x + 1 < nx := by omega
      simp only [List.mem_cons, List.not_mem_nil, or_false] at hv
      rcases hv with rfl | rfl
      · exact gridId_lt nx ny y x hy hx
      · calc y * nx + x + 1 = y * nx + (x + 1) := by ring
          _ < nx * ny := gridId_lt nx ny y (x+1) hy hx1
    · rw [if_neg hxlast] at hv
      exact absurd hv (List.not_mem_nil v)

/-! ## Claims C1, C3, C4 -/

/-- C1: for every grid with `2 ≤ nx_pts ≤ MAX_WIDTH` and
`2 ≤ ny_pts ≤ MAX_HEIGHT`, `generate_indices` writes exactly
`2*(2*nx_pts*ny_pts - nx_pts - ny_pts)` entries to the destination buffer
(the written prefix is the emitted stream and everything past it is the
prior contents), and every written value lies in `[0, nx_pts*ny_pts)`. -/
theorem claim_C1 (nx ny : ℕ) (arr : List ℕ)
    (h2x : 2 ≤ nx) (hx : nx ≤ MAX_WIDTH) (h2y : 2 ≤ ny) (hy : ny ≤ MAX_HEIGHT)
    (hlen : 2 * (2 * nx * ny - nx - ny) ≤ arr.length) :
    generate_indices arr nx ny
        = emittedIndices nx ny ++ arr.drop (2 * (2 * nx * ny - nx - ny)) ∧
    (emittedIndices nx ny).length = 2 * (2 * nx * ny - nx - ny) ∧
    ∀ v ∈ emittedIndices nx ny, v < nx * ny := by
  have hlenE := length_emittedIndices nx ny (by omega) (by omega)
  have hguard : ¬(nx > MAX_WIDTH ∨ ny > MAX_HEIGHT) := by
    push_neg
    exact ⟨hx, hy⟩
  refine ⟨?_, hlenE, fun v hv => emittedIndices_lt nx ny v hv⟩
  rw [generate_indices_eq nx ny hguard arr,
    writeSeq_eq_append arr (emittedIndices nx ny) 0 (by omega),
    List.take_zero, List.nil_append, Nat.zero_add, hlenE]

/-- Witness for C1 at `nx_pts = 3`, `ny_pts = 2` on a 14-entry buffer. -/
theorem claim_C1_witness :
    generate_indices (List.replicate 14 0) 3 2
        = emittedIndices 3 2 ++ (List.replicate 14 0).drop 14 ∧
    (emittedIndices 3 2).length = 14 ∧
    ∀ v ∈ emittedIndices 3 2, v < 6 :=
  claim_C1 3 2 (List.replicate 14 0) (by decide) (by decide) (by decide)
    (by decide) (by decide)

/-- C3: `generate_indices` iterates rows outer ascending and columns inner
ascending, emitting for each point with linear id `y*nx_pts + x` first the
vertical pair `(id, id + nx_pts)` (unless last row) and then the
horizontal pair `(id, id + 1)` (unless last column): the written prefix is
exactly the stream `emittedIndices`, whose definition is that iteration
order.  In particular, for `nx_pts = 3, ny_pts = 2`, point id 0 emits the
pairs `(0,3)` and `(0,1)`, and point id 5 (row 1, column 2) emits no
pairs. -/
theorem claim_C3 (nx ny : ℕ) (arr : List ℕ)
    (h2x : 2 ≤ nx) (hx : nx ≤ MAX_WIDTH) (h2y : 2 ≤ ny) (hy : ny ≤ MAX_HEIGHT)
    (hlen : 2 * (2 * nx * ny - nx - ny) ≤ arr.length) :
    generate_indices arr nx ny
        = ((List.range ny).flatMap fun y =>
            (List.range nx).flatMap fun x => pointPairs nx ny y x)
          ++ arr.drop (2 * (2 * nx * ny - nx - ny)) ∧
    pointPairs 3 2 0 0 = [0, 3, 0, 1] ∧
    pointPairs 3 2 1 2 = [] := by
  have hlenE := length_emittedIndices nx ny (by omega) (by omega)
  have hguard : ¬(nx > MAX_WIDTH ∨ ny > MAX_HEIGHT) := by
    push_neg
    exact ⟨hx, hy⟩
  refine ⟨?_, by decide, by decide⟩
  rw [generate_indices_eq nx ny hguard arr,
    writeSeq_eq_append arr (emittedIndices nx ny) 0 (by omega),
    List.take_zero, List.nil_append, Nat.zero_add, hlenE]
  rfl

/-- Witness for C3 at `nx_pts = 3`, `ny_pts = 2` on a 14-entry buffer. -/
theorem claim_C3_witness :
    generate_indices (List.replicate 14 0) 3 2
        = ((List.range 2).flatMap fun y =>
            (List.range 3).flatMap fun x => pointPairs 3 2 y x)
          ++ (List.replicate 14 0).drop 14 ∧
    pointPairs 3 2 0 0 = [0, 3, 0, 1] ∧
    pointPairs 3 2 1 2 = [] :=
  claim_C3 3 2 (List.replicate 14 0) (by decide) (by decide) (by decide)
    (by decide) (by decide)

/-- C4: when `nx_pts` exceeds `MAX_WIDTH` or `ny_pts` exceeds
`MAX_HEIGHT`, both generators return with the destination buffer exactly
as it was, and no failure is signalled (the functions are total and return
nothing). -/
theorem claim_C4 (nx ny : ℕ) (arrF : List ℚ) (arrI : List ℕ)
    (h : nx > MAX_WIDTH ∨ ny > MAX_HEIGHT) :
    generate_mesh arrF nx ny = arrF ∧ generate_indices arrI nx ny = arrI := by
  constructor
  · rw [generate_mesh, if_pos h]
  · rw [generate_indices, if_pos h]

/-- Witness for C4 at `nx_pts = 513 > MAX_WIDTH`. -/
theorem claim_C4_witness :
    generate_mesh [1, 2, 3] 513 2 = [1, 2, 3] ∧
    generate_indices [4, 5] 513 2 = [4, 5] :=
  claim_C4 513 2 [1, 2, 3] [4, 5] (by decide)

/-! ## `generate_mesh` as a single write of the vertex stream -/

theorem length_flatMap_const {α ι : Type} (l : List ι) (g : ι → List α) (L : ℕ)
    (h : ∀ i ∈ l, (g i).length = L) : (l.flatMap g).length = l.length * L := by
  rw [List.length_flatMap]
  have hmap : l.map (List.length ∘ g) = l.map (fun _ => L) := by
    apply List.map_congr_left
    intro i hi
    simp only [Function.comp_apply]
    exact h i hi
  rw [hmap, List.map_const', List.sum_replicate, smul_eq_mul]

theorem getElem?_flatMap_range {α : Type} (g : ℕ → List α) (L : ℕ)
    (hL : ∀ t, (g t).length = L) :
    ∀ (n k r : ℕ), k < n → r < L →
      ((List.range n).flatMap g)[L * k + r]? = (g k)[r]? := by
  intro n
  induction n with
  | zero => intro k r hk _; exact absurd hk (Nat.not_lt_zero k)
  | succ m ih =>
    intro k r hk hr
    rw [List.range_succ, List.flatMap_append, List.flatMap_cons,
      List.flatMap_nil, List.append_nil]
    have hlen : ((List.range m).flatMap g).length = L * m := by
      rw [length_flatMap_const _ g L (fun i _ => hL i), List.length_range,
        Nat.mul_comm]
    by_cases hkm : k < m
    · have hpos : L * k + r < ((List.range m).flatMap g).length := by
        rw [hlen]
        calc L * k + r < L * k + L := by omega
          _ = L * (k + 1) := by ring
          _ ≤ L * m := Nat.mul_le_mul_left L hkm
      rw [List.getElem?_append_left hpos]
      exact ih k r hkm hr
    · have hkm2 : k = m := by omega
      subst hkm2
      rw [List.getElem?_append_right (by omega)]
      rw [hlen, show L * k + r - L * k = r from by omega]

theorem meshBody_eq (nx ny y x : ℕ) (st : List ℚ × ℕ) :
    writeTriple st (meshX nx x) (meshY ny y) (meshZ nx ny x y)
      = (writeSeq st.1 st.2 [meshX nx x, meshY ny y, meshZ nx ny x y],
         st.2 + ([meshX nx x, meshY ny y, meshZ nx ny x y] : List ℚ).length) := rfl

theorem generate_mesh_eq (nx ny : ℕ) (h : ¬(nx > MAX_WIDTH ∨ ny > MAX_HEIGHT))
    (arr : List ℚ) :
    generate_mesh arr nx ny = writeSeq arr 0 (meshVals nx ny) := by
  have hinner : ∀ (y : ℕ) (st : List ℚ × ℕ),
      (List.range nx).foldl
          (fun st2 x =>
            writeTriple st2 (meshX nx x) (meshY ny y) (meshZ nx ny x y)) st
        = (writeSeq st.1 st.2
            ((List.range nx).flatMap fun x => [meshX nx x, meshY ny y, meshZ nx ny x y]),
           st.2 + ((List.range nx).flatMap fun x =>
             [meshX nx x, meshY ny y, meshZ nx ny x y]).length) := by
    intro y st
    exact foldl_writeSeq (fun x => [meshX nx x, meshY ny y, meshZ nx ny x y])
      (fun st2 x => writeTriple st2 (meshX nx x) (meshY ny y) (meshZ nx ny x y))
      (fun st2 x => meshBody_eq nx ny y x st2) (List.range nx) st.1 st.2
  have houter := foldl_writeSeq
    (fun y => (List.range nx).flatMap fun x => [meshX nx x, meshY ny y, meshZ nx ny x y])
    (fun st y =>
      (List.range nx).foldl
        (fun st2 x =>
          writeTriple st2 (meshX nx x) (meshY ny y) (meshZ nx ny x y)) st)
    (fun st y => hinner y st) (List.range ny) arr 0
  rw [generate_mesh, if_neg h, houter]
  rfl

theorem length_meshRow (nx ny y : ℕ) :
    ((List.range nx).flatMap fun x =>
        [meshX nx x, meshY ny y, meshZ nx ny x y]).length = 3 * nx := by
  rw [length_flatMap_const (List.range nx)
    (fun x => [meshX nx x, meshY ny y, meshZ nx ny x y]) 3 (fun i _ => rfl),
    List.length_range, Nat.mul_comm]

theorem length_meshVals (nx ny : ℕ) :
    (meshVals nx ny).length = 3 * nx * ny := by
  rw [meshVals, length_flatMap_const _ _ (3 * nx)
    (fun y _ => length_meshRow nx ny y), List.length_range]
  ring

theorem getElem?_meshVals (nx ny i j r : ℕ) (hi : i < nx) (hj : j < ny)
    (hr : r < 3) :
    (meshVals nx ny)[3 * (j * nx + i) + r]?
      = ([meshX nx i, meshY ny j, meshZ nx ny i j] : List ℚ)[r]? := by
  rw [meshVals,
    show 3 * (j * nx + i) + r = (3 * nx) * j + (3 * i + r) from by ring,
    getElem?_flatMap_range _ (3 * nx) (fun y => length_meshRow nx ny y) ny j
      (3 * i + r) hj (by omega),
    getElem?_flatMap_range (fun x => [meshX nx x, meshY ny j, meshZ nx ny x j])
      3 (fun x => rfl) nx i r hi hr]

/-! ## Claim C2 -/

/-- C2: for every grid with `2 ≤ nx_pts ≤ MAX_WIDTH` and
`2 ≤ ny_pts ≤ MAX_HEIGHT`, `generate_mesh` writes, at buffer offset
`3*(j*nx_pts + i)` for each row `j` and column `i`, the triple
`(x, y, z)` with `x = X_START + i·(WIDTH/(nx_pts-1))`,
`y = Y_START + j·(HEIGHT/(ny_pts-1))`, `z = x² + 2y² + SHIFT` (all in f32
arithmetic, as `meshX`/`meshY`/`meshZ` spell out), overwriting exactly the
first `3*nx_pts*ny_pts` entries and leaving every entry beyond that
untouched. -/
theorem claim_C2 (nx ny : ℕ) (arr : List ℚ)
    (h2x : 2 ≤ nx) (hx : nx ≤ MAX_WIDTH) (h2y : 2 ≤ ny) (hy : ny ≤ MAX_HEIGHT)
    (hlen : 3 * nx * ny ≤ arr.length) :
    generate_mesh arr nx ny = meshVals nx ny ++ arr.drop (3 * nx * ny) ∧
    (meshVals nx ny).length = 3 * nx * ny ∧
    ∀ j, j < ny → ∀ i, i < nx →
      (generate_mesh arr nx ny)[3 * (j * nx + i)]? = some (meshX nx i) ∧
      (generate_mesh arr nx ny)[3 * (j * nx + i) + 1]? = some (meshY ny j) ∧
      (generate_mesh arr nx ny)[3 * (j * nx + i) + 2]? = some (meshZ nx ny i j) := by
  have hlenM := length_meshVals nx ny
  have hguard : ¬(nx > MAX_WIDTH ∨ ny > MAX_HEIGHT) := by
    push_neg
    exact ⟨hx, hy⟩
  have hpre : generate_mesh arr nx ny = meshVals nx ny ++ arr.drop (3 * nx * ny) := by
    rw [generate_mesh_eq nx ny hguard arr,
      writeSeq_eq_append arr (meshVals nx ny) 0 (by omega),
      List.take_zero, List.nil_append, Nat.zero_add, hlenM]
  refine ⟨hpre, hlenM, fun j hj i hi => ?_⟩
  have hblock : ∀ r, r < 3 →
      (generate_mesh arr nx ny)[3 * (j * nx + i) + r]?
        = ([meshX nx i, meshY ny j, meshZ nx ny i j] : List ℚ)[r]? := by
    intro r hr
    have hpos : 3 * (j * nx + i) + r < (meshVals nx ny).length := by
      rw [hlenM]
      have h1 : j * nx + i + 1 ≤ nx * ny := by
        have := gridId_lt nx ny j i hj hi
        omega
      calc 3 * (j * nx + i) + r < 3 * (j * nx + i) + 3 := by omega
        _ = 3 * (j * nx + i + 1) := by ring
        _ ≤ 3 * (nx * ny) := by
            exact Nat.mul_le_mul_left 3 h1
        _ = 3 * nx * ny := by ring
    rw [hpre, List.getElem?_append_left hpos, getElem?_meshVals nx ny i j r hi hj hr]
  have h0 := hblock 0 (by omega)
  rw [Nat.add_zero] at h0
  exact ⟨h0.trans (by simp), (hblock 1 (by omega)).trans (by simp),
    (hblock 2 (by omega)).trans (by simp)⟩

/-- Witness for C2 at the smallest valid grid `nx_pts = ny_pts = 2` on a
12-entry buffer. -/
theorem claim_C2_witness :
    generate_mesh (List.replicate 12 0) 2 2
        = meshVals 2 2 ++ (List.replicate 12 0).drop 12 ∧
    (meshVals 2 2).length = 12 ∧
    ∀ j, j < 2 → ∀ i, i < 2 →
      (generate_mesh (List.replicate 12 0) 2 2)[3 * (j * 2 + i)]? = some (meshX 2 i) ∧
      (generate_mesh (List.replicate 12 0) 2 2)[3 * (j * 2 + i) + 1]? = some (meshY 2 j) ∧
      (generate_mesh (List.replicate 12 0) 2 2)[3 * (j * 2 + i) + 2]? = some (meshZ 2 2 i j) :=
  claim_C2 2 2 (List.replicate 12 0) (by decide) (by decide) (by decide)
    (by decide) (by decide)

/-! ## `rotate_mesh` lemmas -/

theorem rotate_mesh_zero (st : RotationState) (arr : List ℚ) :
    rotate_mesh st arr 0 = arr := rfl

theorem rotate_mesh_succ (st : RotationState) (arr : List ℚ) (n : ℕ) :
    rotate_mesh st arr (n+1)
      = rotatePoint st.cos_angle st.sin_angle (rotate_mesh st arr n) n := by
  rw [rotate_mesh, rotate_mesh, List.range_succ, List.foldl_append,
    List.foldl_cons, List.foldl_nil]

theorem length_rotatePoint (c s : ℚ) (arr : List ℚ) (i : ℕ) :
    (rotatePoint c s arr i).length = arr.length := by
  simp [rotatePoint]

theorem length_rotate_mesh (st : RotationState) (arr : List ℚ) (n : ℕ) :
    (rotate_mesh st arr n).length = arr.length := by
  induction n with
  | zero => rfl
  | succ k ih => rw [rotate_mesh_succ, length_rotatePoint, ih]

theorem getElem?_rotate_mesh_ge (st : RotationState) (arr : List ℚ) (n m : ℕ)
    (h : 3 * n ≤ m) : (rotate_mesh st arr n)[m]? = arr[m]? := by
  induction n with
  | zero => rfl
  | succ k ih =>
    rw [rotate_mesh_succ]
    simp only [rotatePoint]
    rw [List.getElem?_set_ne (by omega), List.getElem?_set_ne (by omega)]
    exact ih (by omega)

theorem getD_rotate_mesh_ge (st : RotationState) (arr : List ℚ) (n m : ℕ)
    (h : 3 * n ≤ m) : (rotate_mesh st arr n).getD m 0 = arr.getD m 0 := by
  rw [List.getD_eq_getElem?_getD, List.getD_eq_getElem?_getD,
    getElem?_rotate_mesh_ge st arr n m h]

theorem rotate_mesh_getElem? (st : RotationState) (arr : List ℚ) :
    ∀ (n : ℕ), 3 * n ≤ arr.length → ∀ i, i < n →
      (rotate_mesh st arr n)[3*i]?
          = some (fsub (fmul st.cos_angle (arr.getD (3*i) 0))
              (fmul st.sin_angle (arr.getD (3*i+1) 0))) ∧
      (rotate_mesh st arr n)[3*i+1]?
          = some (fadd (fmul st.cos_angle (arr.getD (3*i+1) 0))
              (fmul st.sin_angle (arr.getD (3*i) 0))) ∧
      (rotate_mesh st arr n)[3*i+2]? = arr[3*i+2]? := by
  intro n
  induction n with
  | zero => intro _ i hi; exact absurd hi (Nat.not_lt_zero i)
  | succ k ih =>
    intro hlen i hi
    rw [rotate_mesh_succ]
    simp only [rotatePoint]
    by_cases hik : i < k
    · obtain ⟨ihx, ihy, ihz⟩ := ih (by omega) i hik
      refine ⟨?_, ?_, ?_⟩
      · rw [List.getElem?_set_ne (by omega), List.getElem?_set_ne (by omega)]
        exact ihx
      · rw [List.getElem?_set_ne (by omega), List.getElem?_set_ne (by omega)]
        exact ihy
      · rw [List.getElem?_set_ne (by omega), List.getElem?_set_ne (by omega)]
        exact ihz
    · have hik2 : i = k := by omega
      subst hik2
      have hx := getD_rotate_mesh_ge st arr i (3*i) (by omega)
      have hy := getD_rotate_mesh_ge st arr i (3*i+1) (by omega)
      have hlen1 : 3*i < (rotate_mesh st arr i).length := by
        rw [length_rotate_mesh]; omega
      have hlen2 : 3*i+1 < ((rotate_mesh st arr i).set (3*i)
          (fsub (fmul st.cos_angle ((rotate_mesh st arr i).getD (3*i) 0))
            (fmul st.sin_angle ((rotate_mesh st arr i).getD (3*i+1) 0)))).length := by
        rw [List.length_set, length_rotate_mesh]; omega
      refine ⟨?_, ?_, ?_⟩
      · rw [List.getElem?_set_ne (by omega),
          List.getElem?_set_self hlen1, hx, hy]
      · rw [List.getElem?_set_self hlen2, hx, hy]
      · rw [List.getElem?_set_ne (by omega), List.getElem?_set_ne (by omega)]
        exact getElem?_rotate_mesh_ge st arr i (3*i+2) (by omega)

/-! ## Claim C5 -/

/-- C5: for every buffer holding at least `3*n_pts` floats and every
cached cosine/sine pair, `rotate_mesh` replaces each of the first `n_pts`
points' `(x, y)` pair with `(cosθ·x − sinθ·y, cosθ·y + sinθ·x)` (in f32
arithmetic), using the currently cached cosine/sine for every point, and
leaves every point's `z` coordinate unchanged. -/
theorem claim_C5 (st : RotationState) (arr : List ℚ) (n : ℕ)
    (hlen : 3 * n ≤ arr.length) :
    ∀ i, i < n →
      (rotate_mesh st arr n)[3*i]?
          = some (fsub (fmul st.cos_angle (arr.getD (3*i) 0))
              (fmul st.sin_angle (arr.getD (3*i+1) 0))) ∧
      (rotate_mesh st arr n)[3*i+1]?
          = some (fadd (fmul st.cos_angle (arr.getD (3*i+1) 0))
              (fmul st.sin_angle (arr.getD (3*i) 0))) ∧
      (rotate_mesh st arr n)[3*i+2]? = arr[3*i+2]? :=
  fun i hi => rotate_mesh_getElem? st arr n hlen i hi

/-- Witness for C5: two points, inspecting point 0. -/
theorem claim_C5_witness :
    (rotate_mesh initState [1, 2, 3, 4, 5, 6] 2)[0]?
        = some (fsub (fmul initState.cos_angle (([1, 2, 3, 4, 5, 6] : List ℚ).getD 0 0))
            (fmul initState.sin_angle (([1, 2, 3, 4, 5, 6] : List ℚ).getD 1 0))) ∧
    (rotate_mesh initState [1, 2, 3, 4, 5, 6] 2)[1]?
        = some (fadd (fmul initState.cos_angle (([1, 2, 3, 4, 5, 6] : List ℚ).getD 1 0))
            (fmul initState.sin_angle (([1, 2, 3, 4, 5, 6] : List ℚ).getD 0 0))) ∧
    (rotate_mesh initState [1, 2, 3, 4, 5, 6] 2)[2]? = ([1, 2, 3, 4, 5, 6] : List ℚ)[2]? :=
  claim_C5 initState [1, 2, 3, 4, 5, 6] 2 (by decide) 0 (by decide)

/-! ## Rotation at angle zero (claim C9) -/

theorem roundF32_zero : roundF32 0 = 0 := by decide

theorem fmul_one_isF32 (x : ℚ) (hx : IsF32 x) : fmul 1 x = x := by
  rw [fmul, qmul_eq, one_mul]
  exact hx

theorem fmul_zero_left (y : ℚ) : fmul 0 y = 0 := by
  rw [fmul, qmul_eq, zero_mul]
  exact roundF32_zero

theorem fsub_zero_isF32 (x : ℚ) (hx : IsF32 x) : fsub x 0 = x := by
  rw [fsub, qsub_eq, sub_zero]
  exact hx

theorem fadd_zero_isF32 (x : ℚ) (hx : IsF32 x) : fadd x 0 = x := by
  rw [fadd, qadd_eq, add_zero]
  exact hx

theorem set_getD_self {α : Type} (l : List α) (i : ℕ) (d : α)
    (h : i < l.length) : l.set i (l.getD i d) = l := by
  apply List.ext_getElem?
  intro n
  by_cases hn : i = n
  · subst hn
    rw [List.getElem?_set_self h, List.getD_eq_getElem?_getD,
      List.getElem?_eq_getElem h]
    rfl
  · rw [List.getElem?_set_ne hn]

theorem getD_isF32 (arr : List ℚ) (i : ℕ) (h : i < arr.length)
    (hrep : ∀ v ∈ arr, IsF32 v) : IsF32 (arr.getD i 0) := by
  rw [List.getD_eq_getElem?_getD, List.getElem?_eq_getElem h]
  exact hrep _ (List.getElem_mem h)

theorem rotatePoint_one_zero (arr : List ℚ) (i : ℕ)
    (h : 3 * i + 1 < arr.length) (hrep : ∀ v ∈ arr, IsF32 v) :
    rotatePoint 1 0 arr i = arr := by
  have hx := getD_isF32 arr (3*i) (by omega) hrep
  have hy := getD_isF32 arr (3*i+1) (by omega) hrep
  rw [rotatePoint]
  rw [fmul_one_isF32 _ hx, fmul_one_isF32 _ hy, fmul_zero_left, fmul_zero_left,
    fsub_zero_isF32 _ hx, fadd_zero_isF32 _ hy,
    set_getD_self arr (3*i) 0 (by omega)]
  exact set_getD_self arr (3*i+1) 0 (by omega)

theorem rotate_mesh_one_zero (st : RotationState) (hc : st.cos_angle = 1)
    (hs : st.sin_angle = 0) (arr : List ℚ) (n : ℕ) (hlen : 3 * n ≤ arr.length)
    (hrep : ∀ v ∈ arr, IsF32 v) : rotate_mesh st arr n = arr := by
  induction n with
  | zero => rfl
  | succ k ih =>
    rw [rotate_mesh_succ, ih (by omega), hc, hs,
      rotatePoint_one_zero arr k (by omega) hrep]

/-- C9: after `set_rotation_angle(0)`, a call to `rotate_mesh` is the
identity on every point's `(x, y)` pair — in the model, exactly the
identity on the buffer (the spec's "within floating tolerance" is met
with zero error). -/
theorem claim_C9 (arr : List ℚ) (n : ℕ) (hlen : 3 * n ≤ arr.length)
    (hrep : ∀ v ∈ arr, IsF32 v) :
    rotate_mesh (set_rotation_angle 0) arr n = arr :=
  rotate_mesh_one_zero (set_rotation_angle 0) (by decide) (by decide) arr n
    hlen hrep

/-- Witness for C9 on the one-point buffer `[1, 2, 3]`. -/
theorem claim_C9_witness :
    rotate_mesh (set_rotation_angle 0) [1, 2, 3] 1 = [1, 2, 3] :=
  claim_C9 [1, 2, 3] 1 (by decide) (by decide)

/-! ## Claims C6, C7, C8 -/

/-- C6: for every angle `θ`, `set_rotation_angle` stores as the cached
cosine the truncated Taylor polynomial `1 − θ²/2 + θ⁴/24` and as the
cached sine `θ·(1 − θ²/6)`, with the coefficients at binary32 precision
and both polynomials evaluated in f32 arithmetic in Horner form — the
source's decimal literals round to exactly the f32 values of `1/2`,
`1/24` and `1/6`. -/
theorem claim_C6 (θ : ℚ) :
    (set_rotation_angle θ).cos_angle = specTaylorCos θ ∧
    (set_rotation_angle θ).sin_angle = specTaylorSin θ := by
  have h0 : C0 = roundF32 1 := rfl
  have h1 : C1 = roundF32 (-(mkRat 1 2)) := by decide
  have h2 : C2 = roundF32 (mkRat 1 24) := by decide
  have h3 : S0 = roundF32 1 := rfl
  have h4 : S1 = roundF32 (-(mkRat 1 6)) := by decide
  constructor
  · simp only [set_rotation_angle]
    rw [small_angle_cos, specTaylorCos, h0, h1, h2]
  · simp only [set_rotation_angle]
    rw [small_angle_sin, specTaylorSin, h3, h4]

/-- The invariant holds at process start. -/
theorem initState_consistent : RotConsistent initState := by
  constructor <;> decide

/-- Every public call preserves the rotation-state invariant. -/
theorem applyOp_consistent (st : SystemState) (op : HostOp)
    (h : RotConsistent st.rotation) : RotConsistent (applyOp st op).rotation := by
  cases op with
  | setRotationAngle a =>
    refine ⟨?_, ?_⟩ <;> simp only [applyOp, set_rotation_angle]
  | generateMesh nx ny => simpa only [applyOp] using h
  | generateIndices nx ny => simpa only [applyOp] using h
  | rotateMesh n => simpa only [applyOp] using h
  | getMeshBuffer => simpa only [applyOp] using h
  | getIndexBuffer => simpa only [applyOp] using h

theorem runOps_consistent (ops : List HostOp) :
    ∀ (st : SystemState), RotConsistent st.rotation →
      RotConsistent (runOps st ops).rotation := by
  induction ops with
  | nil => intro st h; exact h
  | cons op ops ih =>
    intro st h
    exact ih (applyOp st op) (applyOp_consistent st op h)

/-- C7: after every sequence of public operations starting from the
initial state, the rotation state is mutually consistent: the cached
cosine and sine are exactly the Taylor values of the stored angle.  Only
`set_rotation_angle` mutates the three scalars, and it updates all three
together. -/
theorem claim_C7 (ops : List HostOp) :
    RotConsistent (runOps initSystem ops).rotation :=
  runOps_consistent ops initSystem initState_consistent

/-- C8: the rotation state is initialized to angle 0 with cosine 1.0 and
sine 0.0, and `set_rotation_angle(0)` stores cosine exactly 1.0 and sine
exactly 0.0 — no approximation error at zero. -/
theorem claim_C8 :
    initState.rotation_angle = 0 ∧ initState.cos_angle = 1 ∧
    initState.sin_angle = 0 ∧ (set_rotation_angle 0).rotation_angle = 0 ∧
    (set_rotation_angle 0).cos_angle = 1 ∧ (set_rotation_angle 0).sin_angle = 0 := by
  refine ⟨rfl, rfl, rfl, rfl, ?_, ?_⟩ <;> decide

/-! ## Claim C10 -/

/-- C10: for every `nx_pts ≤ MAX_WIDTH` and `ny_pts ≤ MAX_HEIGHT`, the
output sizes required by the generators fit the process-owned static
buffers: `3*nx*ny ≤ MESH_SIZE` and
`2*(2*nx*ny - nx - ny) ≤ INDEX_SIZE`, so guarded generation directed at
the static buffers never writes out of bounds. -/
theorem claim_C10 (nx ny : ℕ) (hx : nx ≤ MAX_WIDTH) (hy : ny ≤ MAX_HEIGHT) :
    3 * nx * ny ≤ MESH_SIZE ∧ 2 * (2 * nx * ny - nx - ny) ≤ INDEX_SIZE := by
  have hx5 : nx ≤ 512 := hx
  have hy5 : ny ≤ 512 := hy
  have hxy : nx * ny ≤ 512 * 512 := Nat.mul_le_mul hx5 hy5
  constructor
  · have hM : MESH_SIZE = 3 * (512 * 512) := by decide
    rw [hM, show 3 * nx * ny = 3 * (nx * ny) from by ring]
    exact Nat.mul_le_mul_left 3 hxy
  · have hI : INDEX_SIZE = 1046528 := by decide
    rw [hI]
    rcases Nat.eq_zero_or_pos nx with h0 | hposx
    · subst h0; omega
    · rcases Nat.eq_zero_or_pos ny with h0 | hposy
      · subst h0
        have : 2 * nx * 0 = 0 := by ring
        omega
      · have key : 2 * nx * ny ≤ 523264 + nx + ny := by
          zify
          have ha1 : (1:ℤ) ≤ (nx:ℤ) := by exact_mod_cast hposx
          have ha2 : (nx:ℤ) ≤ 512 := by exact_mod_cast hx5
          have hb1 : (1:ℤ) ≤ (ny:ℤ) := by exact_mod_cast hposy
          have hb2 : (ny:ℤ) ≤ 512 := by exact_mod_cast hy5
          have hp1 : (0:ℤ) ≤ 512 - (nx:ℤ) := by linarith
          have hp2 : (0:ℤ) ≤ 2 * (ny:ℤ) - 1 := by linarith
          have hp3 : (0:ℤ) ≤ 512 - (ny:ℤ) := by linarith
          nlinarith [mul_nonneg hp1 hp2, hp3]
        omega

/-- Witness for C10 at the maximal grid `512 × 512`. -/
theorem claim_C10_witness :
    3 * 512 * 512 ≤ MESH_SIZE ∧ 2 * (2 * 512 * 512 - 512 - 512) ≤ INDEX_SIZE :=
  claim_C10 512 512 (by decide) (by decide)

end Paraboloid
